import Mathlib

/-!
# Verification of the `accesscontrol` grants-model engine

Shallow embedding of `src/lib/utils.js`: the grants table, its validators,
role-hierarchy resolution, the rule committer, the query evaluator and the
lock manager.  JS objects become association lists (key order is insertion
order, as in V8), thrown `AccessControlError`s become an explicit error type,
and the unbounded JS call stack of the recursive hierarchy walk becomes an
explicit fuel parameter (`ACErr.outOfFuel` marks fuel exhaustion, i.e. a
computation whose recursion depth exceeds the supplied bound).  Mutating
operations return the final table together with an optional error, mirroring
a JS exception that propagates while the heap mutations performed so far
persist.
-/

/-- Errors of the embedded program.  `err` is a thrown `AccessControlError`
carrying its message; `typeError` is a JS runtime `TypeError` (e.g. a property
access on `undefined`), which the library never constructs intentionally;
`outOfFuel` marks exhaustion of the recursion-depth fuel of the embedding. -/
inductive ACErr where
  | err : String → ACErr
  | typeError : String → ACErr
  | outOfFuel : ACErr
deriving DecidableEq, Repr

instance {ε α : Type} [DecidableEq ε] [DecidableEq α] : DecidableEq (Except ε α) := fun a b =>
  match a, b with
  | .ok x, .ok y =>
    if h : x = y then .isTrue (by rw [h]) else .isFalse (by intro hc; cases hc; exact h rfl)
  | .error x, .error y =>
    if h : x = y then .isTrue (by rw [h]) else .isFalse (by intro hc; cases hc; exact h rfl)
  | .ok _, .error _ => .isFalse (by intro hc; cases hc)
  | .error _, .ok _ => .isFalse (by intro hc; cases hc)

/-- A JS value that is expected to be a string or an array of strings.
`other` stands for any (truthy) value of a different type. -/
inductive StrOrList where
  | str : String → StrOrList
  | list : List String → StrOrList
  | other : StrOrList
deriving DecidableEq, Repr

/-- JS `String.prototype.trim` (structural over the character list, so the
kernel can evaluate it). -/
def jsTrim (s : String) : String :=
  String.mk (((s.data.dropWhile Char.isWhitespace).reverse.dropWhile
    Char.isWhitespace).reverse)

/-- JS `String.prototype.toLowerCase` (for the ASCII names this engine
handles). -/
def jsToLower (s : String) : String := String.mk (s.data.map Char.toLower)

/-- Splitting a character list at every separator character; the empty string
splits to `[""]`, as in JS `"".split(...)`. -/
def splitChars (p : Char → Bool) : List Char → List (List Char)
  | [] => [[]]
  | c :: t =>
    if p c then [] :: splitChars p t
    else
      match splitChars p t with
      | [] => [[c]]
      | h :: r => (c :: h) :: r

/-- JS `action.split(':')`. -/
def splitColon (s : String) : List String :=
  (splitChars (fun c => c == ':') s.data).map String.mk

/-- `value.trim().split(/\s*[;,]\s*/)`: splitting on `;`/`,` with the
surrounding whitespace absorbed is the same as splitting the pre-trimmed
string on the separator characters and trimming every piece. -/
def splitTrim (s : String) : List String :=
  (splitChars (fun c => c == ';' || c == ',') (jsTrim s).data).map
    (fun l => jsTrim (String.mk l))

/-- `utils.toStringArray` (src/lib/utils.js:48). -/
def toStringArray : StrOrList → List String
  | .list l => l
  | .str s => splitTrim s
  | .other => []

/-- `utils.isFilledStringArray` (src/lib/utils.js:61), on a value already
known to be an array of strings. -/
def isFilledStringArray (l : List String) : Bool :=
  l.all (fun s => !(jsTrim s == ""))

/-- `utils.isEmptyArray` (src/lib/utils.js:74). -/
def isEmptyArrayS : StrOrList → Bool
  | .list [] => true
  | _ => false

/-- `utils.pushUniq` (src/lib/utils.js:82). -/
def pushUniq (arr : List String) (item : String) : List String :=
  if item ∈ arr then arr else arr ++ [item]

/-- `utils.uniqConcat` (src/lib/utils.js:92). -/
def uniqConcat (arrA arrB : List String) : List String :=
  arrB.foldl pushUniq arrA

/-- `RESERVED_KEYWORDS` (src/lib/utils.js:9). -/
def RESERVED_KEYWORDS : List String := ["*", "!", "$", "$extend"]

/-- `ERR_LOCK` (src/lib/utils.js:13). -/
def ERR_LOCK : String :=
  "Cannot alter the underlying grants model. AccessControl instance is locked."

/-- `actions` enum values (src/src/enums/Action.ts). -/
def actions : List String := ["create", "read", "update", "delete"]

/-- `possessions` enum values. -/
def possessions : List String := ["own", "any"]

/-- `JSON.stringify` of an array of strings (as interpolated into error
messages; none of our strings need character escaping). -/
def jsonStrList (l : List String) : String :=
  "[" ++ String.intercalate "," (l.map (fun s => "\"" ++ s ++ "\"")) ++ "]"

/-- `JSON.stringify` of a string-or-array value. -/
def jsonStrOrList : StrOrList → String
  | .str s => "\"" ++ s ++ "\""
  | .list l => jsonStrList l
  | .other => "null"

/-- `utils.validName` (src/lib/utils.js:201) with `throwOnInvalid = true`,
on a value already known to be a string. -/
def validNameE (name : String) : Except ACErr Unit :=
  if jsTrim name = "" then .error (.err "Invalid name, expected a valid string.")
  else if name ∈ RESERVED_KEYWORDS then
    .error (.err ("Cannot use reserved name: \"" ++ name ++ "\""))
  else .ok ()

/-- Association-list lookup: JS property read `o[key]` (insertion order). -/
def lookupKey {α : Type} : List (String × α) → String → Option α
  | [], _ => none
  | (k, v) :: t, key => if k = key then some v else lookupKey t key

/-- Association-list write: JS property write `o[key] = v` (overwrites in
place, appends a fresh key at the end). -/
def setKey {α : Type} : List (String × α) → String → α → List (String × α)
  | [], key, v => [(key, v)]
  | (k, w) :: t, key, v => if k = key then (key, v) :: t else (k, w) :: setKey t key v

/-- An attribute list: glob-pattern strings. -/
abbrev AttrList := List String

/-- A resource entry: `action:possession` key → attribute list. -/
abbrev ResourceEntry := List (String × AttrList)

/-- A role entry: resource name → resource entry, plus the `$extend` key
(`none` when the key is absent). -/
structure RoleEntry where
  resources : List (String × ResourceEntry)
  extend : Option (List String)
deriving DecidableEq, Repr

/-- The grants table: role name → role entry. -/
abbrev Grants := List (String × RoleEntry)

def emptyRoleEntry : RoleEntry := ⟨[], none⟩

/-- The `role.$extend.forEach` loop body of `getRoleHierarchyOf`
(src/lib/utils.js:477-491).  `hier` is the recursive call at the next
(smaller) fuel. -/
def goExts (hier : String → Option String → Except ACErr (List String))
    (grants : Grants) (roleName : String) (rootRole : Option String) :
    List String → List String → Except ACErr (List String)
  | [], arr => .ok arr
  | ex :: rest, arr =>
    match lookupKey grants ex with
    | none =>
      -- the JS message interpolates `grants[exRoleName]`, which is undefined
      .error (.err "Role not found: \"undefined\"")
    | some _ =>
      if ex = roleName then
        .error (.err ("Cannot extend role \"" ++ roleName ++ "\" by itself."))
      else if rootRole = some ex then
        .error (.err ("Cross inheritance is not allowed. Role \"" ++ ex ++
          "\" already extends \"" ++ ex ++ "\"."))
      else
        match hier ex (some (rootRole.getD roleName)) with
        | .error e => .error e
        | .ok ext => goExts hier grants roleName rootRole rest (uniqConcat arr ext)

/-- `utils.getRoleHierarchyOf` (src/lib/utils.js:467).  The fuel bounds the
recursion depth; the JS call stack is unbounded (until stack overflow). -/
def getRoleHierarchyOf (grants : Grants) : Nat → String → Option String → Except ACErr (List String)
  | 0, _, _ => .error .outOfFuel
  | fuel + 1, roleName, rootRole =>
    match lookupKey grants roleName with
    | none => .error (.err ("Role not found: \"" ++ roleName ++ "\""))
    | some role =>
      match role.extend with
      | none => .ok [roleName]
      | some exts =>
        if exts.isEmpty then .ok [roleName]
        else goExts (fun ex ro => getRoleHierarchyOf grants fuel ex ro)
          grants roleName rootRole exts [roleName]

/-- The `arrRoles.forEach` loop of `getFlatRoles` (src/lib/utils.js:503). -/
def flatGo (grants : Grants) (fuel : Nat) : List String → List String → Except ACErr (List String)
  | [], arr => .ok arr
  | r :: rest, arr =>
    match getRoleHierarchyOf grants fuel r none with
    | .error e => .error e
    | .ok h => flatGo grants fuel rest (uniqConcat arr h)

/-- `utils.getFlatRoles` (src/lib/utils.js:497), on an already-coerced role
list (the evaluator passes the normalized `query.role` array). -/
def getFlatRoles (grants : Grants) (fuel : Nat) (roles : List String) : Except ACErr (List String) :=
  if roles.isEmpty then .error (.err ("Invalid role(s): " ++ jsonStrList roles))
  else flatGo grants fuel roles (uniqConcat [] roles)

/-- `utils.getNonExistentRoles` (src/lib/utils.js:515). -/
def getNonExistentRoles (grants : Grants) (roles : List String) : List String :=
  roles.filter (fun r => (lookupKey grants r).isNone)

/-- The `utils.each` loop of `getCrossExtendingRole` (src/lib/utils.js:539):
returns the first extender whose hierarchy closure contains `roleName`
(JS `crossInherited`), breaking with "no conflict" at an extender equal to
`roleName`; errors thrown by `getRoleHierarchyOf` propagate. -/
def crossGo (grants : Grants) (fuel : Nat) (roleName : String) :
    List String → Except ACErr (Option String)
  | [] => .ok none
  | e :: rest =>
    if e = roleName then .ok none
    else
      match getRoleHierarchyOf grants fuel e none with
      | .error er => .error er
      | .ok h => if roleName ∈ h then .ok (some e) else crossGo grants fuel roleName rest

/-- `utils.getCrossExtendingRole` (src/lib/utils.js:536). -/
def getCrossExtendingRole (grants : Grants) (roleName : String)
    (extenderRoles : StrOrList) (fuel : Nat) : Except ACErr (Option String) :=
  crossGo grants fuel roleName (toStringArray extenderRoles)

/-- The `roles.forEach` loop of `extendRole` (src/lib/utils.js:587-607);
each iteration mutates the table, so an error in a later iteration keeps the
earlier writes. -/
def extendLoop (exts : List String) (fuel : Nat) : Grants → List String → Grants × Option ACErr
  | g, [] => (g, none)
  | g, r :: rest =>
    match lookupKey g r with
    | none => (g, some (.err ("Role not found: \"" ++ r ++ "\"")))
    | some er =>
      if r ∈ exts then
        (g, some (.err ("Cannot extend role \"" ++ r ++ "\" by itself.")))
      else
        match getCrossExtendingRole g r (.list exts) fuel with
        | .error e => (g, some e)
        | .ok (some cr) =>
          (g, some (.err ("Cross inheritance is not allowed. Role \"" ++ cr ++
            "\" already extends \"" ++ r ++ "\".")))
        | .ok none =>
          match validNameE r with
          | .error e => (g, some e)
          | .ok _ =>
            let newExt : List String :=
              match er.extend with
              | some l => uniqConcat l exts
              | none => exts
            extendLoop exts fuel (setKey g r { er with extend := some newExt }) rest

/-- `utils.extendRole` (src/lib/utils.js:570). -/
def extendRole (g : Grants) (roles extenderRoles : StrOrList) (fuel : Nat) :
    Grants × Option ACErr :=
  let rs := toStringArray roles
  if rs.isEmpty then (g, some (.err ("Invalid role(s): " ++ jsonStrList rs)))
  else if isEmptyArrayS extenderRoles then (g, none)
  else
    let exts := toStringArray extenderRoles
    if exts.isEmpty then
      (g, some (.err ("Cannot inherit invalid role(s): " ++ jsonStrOrList extenderRoles)))
    else
      let nonEx := getNonExistentRoles g exts
      if !nonEx.isEmpty then
        (g, some (.err ("Cannot inherit non-existent role(s): \"" ++
          String.intercalate ", " nonEx ++ "\"")))
      else extendLoop exts fuel g rs

/-- `IQueryInfo` fields as received from the caller.  `none` for `resource`,
`action`, `possession` models an absent or non-string value. -/
structure QueryInfo where
  role : StrOrList
  resource : Option String
  action : Option String
  possession : Option String
deriving DecidableEq, Repr

/-- A normalized query. -/
structure NQuery where
  role : List String
  resource : String
  action : String
  possession : String
deriving DecidableEq, Repr

/-- `IAccessInfo` fields as received from the caller. -/
structure AccessInfo where
  role : StrOrList
  resource : StrOrList
  action : Option String
  possession : Option String
  attributes : Option StrOrList
  denied : Bool
deriving DecidableEq, Repr

/-- A (possibly partially) normalized access statement: `action` and
`possession` are normalized only when `normalizeAll` was set. -/
structure NAccess where
  role : List String
  resource : List String
  attributes : List String
  action : Option String
  possession : Option String
deriving DecidableEq, Repr

/-- `utils.normalizeActionPossession` (src/lib/utils.js:353) on the `action`
and `possession` fields; returns the normalized pair.  (The JS message for a
non-string action interpolates `JSON.stringify(info)`; the embedding
abbreviates it, as no theorem depends on that message.) -/
def normalizeActionPossession (action : Option String) (possession : Option String) :
    Except ACErr (String × String) :=
  match action with
  | none => .error (.err "Invalid action: undefined")
  | some a =>
    match splitColon a with
    | [] => .error (.err "Invalid action: ")
    | s0 :: srest =>
      if !(actions.contains (jsToLower (jsTrim s0))) then
        .error (.err ("Invalid action: " ++ s0))
      else
        let act := jsToLower (jsTrim s0)
        let poss : Option String :=
          match possession with
          | some p => if p = "" then srest.head? else some p
          | none => srest.head?
        match poss with
        | some p =>
          if p = "" then .ok (act, "any")
          else if possessions.contains (jsToLower (jsTrim p)) then .ok (act, jsToLower (jsTrim p))
          else .error (.err ("Invalid action possession: " ++ p))
        | none => .ok (act, "any")

/-- `utils.normalizeQueryInfo` (src/lib/utils.js:388).  The JS first clones
the query, so the caller's object is never modified. -/
def normalizeQueryInfo (q : QueryInfo) : Except ACErr NQuery :=
  let roleArr := toStringArray q.role
  if !(isFilledStringArray roleArr) then
    .error (.err ("Invalid role(s): " ++ jsonStrList roleArr))
  else
    match q.resource with
    | none => .error (.err "Invalid resource: \"undefined\"")
    | some res =>
      if jsTrim res = "" then .error (.err ("Invalid resource: \"" ++ res ++ "\""))
      else
        match normalizeActionPossession q.action q.possession with
        | .error e => .error e
        | .ok (act, poss) => .ok ⟨roleArr, jsTrim res, act, poss⟩

/-- Whether the `attributes` value is JS-falsy (`undefined` or `""`; the
`other` constructor stands for a truthy non-string non-array value). -/
def attrsFalsy : Option StrOrList → Bool
  | none => true
  | some (.str "") => true
  | some _ => false

/-- `utils.normalizeAccessInfo` (src/lib/utils.js:415).  The JS first clones
the statement, so the caller's object is never modified. -/
def normalizeAccessInfo (access : AccessInfo) (all : Bool) : Except ACErr NAccess :=
  let roleArr := toStringArray access.role
  if roleArr.isEmpty || !(isFilledStringArray roleArr) then
    .error (.err ("Invalid role(s): " ++ jsonStrList roleArr))
  else
    let resArr := toStringArray access.resource
    if resArr.isEmpty || !(isFilledStringArray resArr) then
      .error (.err ("Invalid resource(s): " ++ jsonStrList resArr))
    else
      let attrs : List String :=
        if access.denied ||
            (match access.attributes with | some (.list l) => l.isEmpty | _ => false) then []
        else if attrsFalsy access.attributes then ["*"]
        else toStringArray (access.attributes.getD .other)
      if all then
        match normalizeActionPossession access.action access.possession with
        | .error e => .error e
        | .ok (act, poss) => .ok ⟨roleArr, resArr, attrs, some act, some poss⟩
      else .ok ⟨roleArr, resArr, attrs, access.action, access.possession⟩

/-- The `accessInfo.resource.forEach` loop of `commitToGrants`
(src/lib/utils.js:650-658) for one role: validates each resource name, then
creates the resource entry if missing and sets `resourceEntry[ap]` to the
attributes; `grantItem` is an alias into the table, so every write is
immediately visible in the table and an error keeps earlier writes. -/
def commitRes (ap : String) (attrs : AttrList) (role : String) :
    Grants → List String → Grants × Option ACErr
  | g, [] => (g, none)
  | g, res :: rest =>
    match validNameE res with
    | .error e => (g, some e)
    | .ok _ =>
      let item := (lookupKey g role).getD emptyRoleEntry
      let rentry := (lookupKey item.resources res).getD []
      let item' : RoleEntry :=
        { item with resources := setKey item.resources res (setKey rentry ap attrs) }
      commitRes ap attrs role (setKey g role item') rest

/-- The `accessInfo.role.forEach` loop of `commitToGrants`
(src/lib/utils.js:644-659): validates the role name, creates its entry if
missing, then commits every resource. -/
def commitRoles (ap : String) (attrs : AttrList) (ress : List String) :
    Grants → List String → Grants × Option ACErr
  | g, [] => (g, none)
  | g, role :: rest =>
    match validNameE role with
    | .error e => (g, some e)
    | .ok _ =>
      let g1 := if (lookupKey g role).isSome then g else setKey g role emptyRoleEntry
      match commitRes ap attrs role g1 ress with
      | (g2, some e) => (g2, some e)
      | (g2, none) => commitRoles ap attrs ress g2 rest

/-- `utils.commitToGrants` (src/lib/utils.js:640).  Returns the final table
and the error, if one was thrown.  (`accessInfo.action + ':' +
accessInfo.possession` string-coerces an absent field to `"undefined"`.) -/
def commitToGrants (g : Grants) (access : AccessInfo) (normalizeAll : Bool) :
    Grants × Option ACErr :=
  match normalizeAccessInfo access normalizeAll with
  | .error e => (g, some e)
  | .ok info =>
    let ap := (info.action.getD "undefined") ++ ":" ++ (info.possession.getD "undefined")
    commitRoles ap info.attributes info.resource g info.role

/-- The per-role attribute lookup of `getUnionAttrsOfRoles`
(src/lib/utils.js:687-689): `resource[action:possession] ||
resource[action:any] || []` (a present empty array is truthy and kept). -/
def roleAttrs (re : ResourceEntry) (q : NQuery) : AttrList :=
  match lookupKey re (q.action ++ ":" ++ q.possession) with
  | some l => l
  | none =>
    match lookupKey re (q.action ++ ":any") with
    | some l => l
    | none => []

/-- The `roles.forEach` loop of `getUnionAttrsOfRoles`
(src/lib/utils.js:679-692).  When a role has no entry for the queried
resource, `role[query.resource]` is `undefined` and the subsequent property
read throws a JS `TypeError`. -/
def collectAttrs (grants : Grants) (q : NQuery) : List String → Except ACErr (List AttrList)
  | [] => .ok []
  | r :: rest =>
    match lookupKey grants r with
    | none =>
      .error (.typeError ("Cannot read properties of undefined (reading '" ++
        q.resource ++ "')"))
    | some role =>
      if q.resource = "" then collectAttrs grants q rest
      else
        match lookupKey role.resources q.resource with
        | none =>
          .error (.typeError ("Cannot read properties of undefined (reading '" ++
            q.action ++ ":" ++ q.possession ++ "')"))
        | some re =>
          match collectAttrs grants q rest with
          | .error e => .error e
          | .ok tl => .ok (roleAttrs re q :: tl)

/-- The pairwise union over the collected per-role attribute lists
(src/lib/utils.js:695-704), parameterized by the external glob matcher's
`Notation.Glob.union`. -/
def unionAll (u : AttrList → AttrList → AttrList) : List AttrList → AttrList
  | [] => []
  | h :: t => t.foldl u h

/-- `utils.getUnionAttrsOfRoles` (src/lib/utils.js:669), parameterized by the
external glob union `u` and the recursion fuel for hierarchy resolution.
The grants table is threaded through and returned, mirroring that the JS
function only reads it. -/
def getUnionAttrsOfRoles (u : AttrList → AttrList → AttrList) (grants : Grants)
    (query : QueryInfo) (fuel : Nat) : Grants × Except ACErr AttrList :=
  match normalizeQueryInfo query with
  | .error e => (grants, .error e)
  | .ok q =>
    match getFlatRoles grants fuel q.role with
    | .error e => (grants, .error e)
    | .ok roles =>
      match collectAttrs grants q roles with
      | .error e => (grants, .error e)
      | .ok attrsList => (grants, .ok (unionAll u attrsList))

/-- An `AccessControl` instance: the underlying grants table and the lock
flag (`_grants` / `_isLocked`). -/
structure AC where
  grants : Grants
  isLocked : Bool
deriving DecidableEq, Repr

/-- `utils.lockAC` (src/lib/utils.js:712).  Deep-freezing is the identity on
values; on success the lock flag is set.  The `Could not lock grants` branch
is unreachable (`deepFreeze` returns the frozen object, which is truthy). -/
def lockAC (ac : AC) : Except ACErr AC :=
  if ac.grants.isEmpty then .error (.err "Cannot lock empty or invalid grants model.")
  else .ok { ac with isLocked := true }

/-- Modelled from the spec: the `AccessControl` class that wraps these
utilities is not under `src/` (only `utils.js` and declaration files are).
Per §4.5 of the spec, "After locking, §4.2's `extendRole` and §4.3's
`commit`/`preCreateRoles` must fail with `Locked` before attempting any
mutation": the wrapper checks the lock flag and throws `ERR_LOCK` before
calling `commitToGrants`. -/
def commitLockChecked (ac : AC) (access : AccessInfo) (normalizeAll : Bool) :
    AC × Option ACErr :=
  if ac.isLocked then (ac, some (.err ERR_LOCK))
  else
    let r := commitToGrants ac.grants access normalizeAll
    ({ ac with grants := r.1 }, r.2)

/-! ## Association-list lemmas -/

theorem lookupKey_setKey_self {α : Type} (l : List (String × α)) (k : String) (v : α) :
    lookupKey (setKey l k v) k = some v := by
  induction l with
  | nil => simp [setKey, lookupKey]
  | cons hd t ih =>
    obtain ⟨a, w⟩ := hd
    by_cases ha : a = k
    · simp [setKey, ha, lookupKey]
    · simp [setKey, ha, lookupKey, ih]

theorem lookupKey_setKey_ne {α : Type} (l : List (String × α)) (k k' : String) (v : α)
    (h : k' ≠ k) : lookupKey (setKey l k v) k' = lookupKey l k' := by
  induction l with
  | nil => simp [setKey, lookupKey, Ne.symm h]
  | cons hd t ih =>
    obtain ⟨a, w⟩ := hd
    by_cases ha : a = k
    · subst ha
      simp [setKey, lookupKey, Ne.symm h]
    · simp [setKey, ha, lookupKey, ih]

theorem lookupKey_setKey_isSome {α : Type} (l : List (String × α)) (k k' : String) (v : α)
    (h : (lookupKey l k').isSome) : (lookupKey (setKey l k v) k').isSome := by
  by_cases hk : k' = k
  · subst hk; simp [lookupKey_setKey_self]
  · rwa [lookupKey_setKey_ne _ _ _ _ hk]

theorem setKey_id {α : Type} (l : List (String × α)) (k : String) (v : α)
    (h : lookupKey l k = some v) : setKey l k v = l := by
  induction l with
  | nil => simp [lookupKey] at h
  | cons hd t ih =>
    obtain ⟨a, w⟩ := hd
    by_cases ha : a = k
    · subst ha
      simp [lookupKey] at h
      simp [setKey, h]
    · simp [lookupKey, ha] at h
      simp [setKey, ha, ih h]

theorem lookupKey_mem {α : Type} (l : List (String × α)) (k : String) (v : α)
    (h : lookupKey l k = some v) : (k, v) ∈ l := by
  induction l with
  | nil => simp [lookupKey] at h
  | cons hd t ih =>
    obtain ⟨a, w⟩ := hd
    by_cases ha : a = k
    · subst ha
      simp [lookupKey] at h
      simp [h]
    · simp [lookupKey, ha] at h
      exact List.mem_cons_of_mem _ (ih h)

theorem strAppend_assoc (a b c : String) : a ++ b ++ c = a ++ (b ++ c) := by
  cases a with | mk la =>
  cases b with | mk lb =>
  cases c with | mk lc =>
  show String.mk (la ++ lb ++ lc) = String.mk (la ++ (lb ++ lc))
  rw [List.append_assoc]

/-- Normalization always produces a non-empty resource name (the source
checks `query.resource.trim() === ''` and stores the trimmed value). -/
theorem normalizeQueryInfo_resource_ne (q : QueryInfo) (nq : NQuery)
    (h : normalizeQueryInfo q = .ok nq) : nq.resource ≠ "" := by
  simp only [normalizeQueryInfo] at h
  split at h
  · cases h
  · split at h
    · cases h
    · split at h
      · cases h
      · split at h
        · cases h
        · cases h
          exact fun hc => absurd hc (by assumption)

/-! ## Claims -/

/-- The table for C1: role `u` exists but has no entry for resource
`video`. -/
def c1Grants : Grants := [("u", emptyRoleEntry)]

/-- The query for C1. -/
def c1Query : QueryInfo := ⟨.list ["u"], some "video", some "create", none⟩

/-- **C1** (code bug): the spec says a role in the flattened closure with no
entry for the queried resource contributes an empty attribute list and the
query completes without error.  The code instead guards the lookup with
`if (query.resource)` — always truthy after normalization — so
`role[query.resource]` is `undefined` and the following property read throws
a JS `TypeError`: the evaluator fails instead of completing. -/
theorem c1_missing_resource_type_error :
    getUnionAttrsOfRoles uniqConcat c1Grants c1Query 2
      = (c1Grants,
         .error (.typeError "Cannot read properties of undefined (reading 'create:any')")) := by
  decide

/-- The access statement for C2: the second role is the reserved keyword
`$`, which is only rejected inside the per-role write loop. -/
def c2Access : AccessInfo :=
  ⟨.list ["a", "$"], .str "video", some "create", some "any", some (.list ["*"]), false⟩

/-- **C2** (counterexample): committing a statement whose second role is the
reserved keyword `$` raises an error, yet the table is left modified — the
grant for the first role `a` was already written — contradicting the claim
that a rejected statement never leaves the table partially modified. -/
theorem c2_partial_commit_counterexample :
    commitToGrants [] c2Access true
      = ([("a", ⟨[("video", [("create:any", ["*"])])], none⟩)],
         some (.err "Cannot use reserved name: \"$\"")) ∧
    ([("a", (⟨[("video", [("create:any", ["*"])])], none⟩ : RoleEntry))] : Grants) ≠ [] := by
  decide

/-- **C2** (amended): only errors detected *before* the write loops leave the
table unchanged: a `commitToGrants` whose normalization fails returns the
table exactly as given, and an `extendRole` whose extender-existence check
fails returns the table exactly as given.  (Reserved-keyword roles/resources
are only detected inside the write loops, where earlier writes persist, as
the counterexample shows.) -/
theorem c2_prevalidation_keeps_table :
    (∀ (g : Grants) (a : AccessInfo) (n : Bool) (e : ACErr),
      normalizeAccessInfo a n = .error e → commitToGrants g a n = (g, some e)) ∧
    (∀ (g : Grants) (roles exts : StrOrList) (fuel : Nat),
      (toStringArray roles).isEmpty = false →
      getNonExistentRoles g (toStringArray exts) ≠ [] →
      extendRole g roles exts fuel
        = (g, some (.err ("Cannot inherit non-existent role(s): \"" ++
            String.intercalate ", " (getNonExistentRoles g (toStringArray exts)) ++ "\"")))) := by
  constructor
  · intro g a n e h
    simp [commitToGrants, h]
  · intro g roles exts fuel h1 h2
    have hne : toStringArray exts ≠ [] := by
      intro hh
      simp [getNonExistentRoles, hh] at h2
    have hies : isEmptyArrayS exts = false := by
      cases exts with
      | str s => rfl
      | other => exact absurd rfl hne
      | list l =>
        cases l with
        | nil => exact absurd rfl hne
        | cons x xs => rfl
    have hexts : (toStringArray exts).isEmpty = false := by
      cases hx : toStringArray exts with
      | nil => exact absurd hx hne
      | cons y ys => rfl
    have hnon : (getNonExistentRoles g (toStringArray exts)).isEmpty = false := by
      cases hx : getNonExistentRoles g (toStringArray exts) with
      | nil => exact absurd hx h2
      | cons y ys => rfl
    simp [extendRole, h1, hies, hexts, hnon]

/-- **C2** (amended, witness): applied to an invalid-role commit and a
non-existent-extender extension on concrete inputs. -/
theorem c2_prevalidation_keeps_table_witness :
    commitToGrants [] ⟨.other, .str "video", some "create", none, none, false⟩ true
      = ([], some (.err "Invalid role(s): []")) ∧
    extendRole [] (.list ["A"]) (.list ["Z"]) 1
      = ([], some (.err "Cannot inherit non-existent role(s): \"Z\"")) := by
  refine ⟨c2_prevalidation_keeps_table.1 [] _ true _ (by decide), ?_⟩
  have h := c2_prevalidation_keeps_table.2 [] (.list ["A"]) (.list ["Z"]) 1
    (by decide) (by decide)
  exact h

/-- **C7**: `lockAC` fails with the `EmptyOrInvalidGrants` error exactly when
the table has zero roles; with at least one role it succeeds (idempotently —
it only sets the lock flag, so locking a locked instance is a no-op success);
and after a successful lock, every commit through the lock-checking wrapper
fails with the `Locked` error. -/
theorem c7_lock_behavior :
    (∀ ac : AC,
      lockAC ac = .error (.err "Cannot lock empty or invalid grants model.")
        ↔ ac.grants = []) ∧
    (∀ ac : AC, ac.grants ≠ [] → lockAC ac = .ok { ac with isLocked := true }) ∧
    (∀ (ac ac' : AC) (a : AccessInfo) (n : Bool),
      lockAC ac = .ok ac' → commitLockChecked ac' a n = (ac', some (.err ERR_LOCK))) := by
  refine ⟨?_, ?_, ?_⟩
  · intro ac
    constructor
    · intro h
      by_cases hg : ac.grants.isEmpty
      · exact List.isEmpty_iff.mp hg
      · simp [lockAC, hg] at h
    · intro h
      simp [lockAC, h]
  · intro ac h
    simp [lockAC, List.isEmpty_iff, h]
  · intro ac ac' a n h
    have hlocked : ac'.isLocked = true := by
      by_cases hg : ac.grants.isEmpty
      · simp [lockAC, hg] at h
      · simp [lockAC, hg] at h
        subst h
        rfl
    simp [commitLockChecked, hlocked]

/-- **C7** (witness): a one-role instance locks successfully and then rejects
a commit with the `Locked` error. -/
theorem c7_lock_behavior_witness :
    lockAC ⟨[("u", emptyRoleEntry)], false⟩ = .ok ⟨[("u", emptyRoleEntry)], true⟩ ∧
    commitLockChecked ⟨[("u", emptyRoleEntry)], true⟩
      ⟨.list ["u"], .str "video", some "create", none, none, false⟩ true
      = (⟨[("u", emptyRoleEntry)], true⟩, some (.err ERR_LOCK)) := by
  refine ⟨c7_lock_behavior.2.1 ⟨[("u", emptyRoleEntry)], false⟩ (by decide), ?_⟩
  exact c7_lock_behavior.2.2 ⟨[("u", emptyRoleEntry)], false⟩ _ _ true
    (c7_lock_behavior.2.1 ⟨[("u", emptyRoleEntry)], false⟩ (by decide))

/-- **C10**: query evaluation is read-only — for every union function,
table, query and fuel, the evaluator returns the grants table unchanged (the
embedding threads the table through every branch exactly because the source
never writes to it; the source also clones the query before normalization,
so the caller's query object is likewise untouched). -/
theorem c10_query_readonly :
    ∀ (u : AttrList → AttrList → AttrList) (g : Grants) (q : QueryInfo) (fuel : Nat),
      (getUnionAttrsOfRoles u g q fuel).1 = g := by
  intro u g q fuel
  unfold getUnionAttrsOfRoles
  cases normalizeQueryInfo q with
  | error e => rfl
  | ok nq =>
    dsimp only
    cases getFlatRoles g fuel nq.role with
    | error e => rfl
    | ok roles =>
      dsimp only
      cases collectAttrs g nq roles with
      | error e => rfl
      | ok al => rfl

/-- The normalized role list is the string-array coercion of the input
`role` field. -/
theorem normalizeQueryInfo_role (q : QueryInfo) (nq : NQuery)
    (h : normalizeQueryInfo q = .ok nq) : nq.role = toStringArray q.role := by
  simp only [normalizeQueryInfo] at h
  split at h
  · cases h
  · split at h
    · cases h
    · split at h
      · cases h
      · split at h
        · cases h
        · cases h
          rfl

/-- Normalization of an access statement reads the `role` field only through
`toStringArray`, so values with the same coercion normalize identically. -/
theorem normalizeAccessInfo_role_congr (r1 r2 res : StrOrList)
    (act poss : Option String) (attrs : Option StrOrList) (d n : Bool)
    (h : toStringArray r1 = toStringArray r2) :
    normalizeAccessInfo ⟨r1, res, act, poss, attrs, d⟩ n
      = normalizeAccessInfo ⟨r2, res, act, poss, attrs, d⟩ n := by
  simp only [normalizeAccessInfo, h]

/-- **C9**: a single role string is trimmed and split on `,`/`;` with the
surrounding whitespace absorbed, so committing with role `"admin, user"`
behaves exactly like role `["admin", "user"]`; a role value that is neither
a string nor an array coerces to the empty list and is rejected with an
"Invalid role(s)" error (commit rejects it in normalization, a query in
`getFlatRoles`), and similarly a non-string non-array resource in a commit is
rejected with "Invalid resource(s)" — never with a JS type error. -/
theorem c9_string_or_list_normalization :
    (∀ (g : Grants) (res : StrOrList) (act poss : Option String)
        (attrs : Option StrOrList) (d n : Bool),
      commitToGrants g ⟨.str "admin, user", res, act, poss, attrs, d⟩ n
        = commitToGrants g ⟨.list ["admin", "user"], res, act, poss, attrs, d⟩ n) ∧
    (∀ (a : AccessInfo) (n : Bool),
      normalizeAccessInfo ⟨.other, a.resource, a.action, a.possession, a.attributes, a.denied⟩ n
        = .error (.err "Invalid role(s): []")) ∧
    (∀ (a : AccessInfo) (n : Bool),
      (toStringArray a.role).isEmpty = false →
      isFilledStringArray (toStringArray a.role) = true →
      normalizeAccessInfo ⟨a.role, .other, a.action, a.possession, a.attributes, a.denied⟩ n
        = .error (.err "Invalid resource(s): []")) ∧
    (∀ (u : AttrList → AttrList → AttrList) (g : Grants) (q : QueryInfo)
        (fuel : Nat) (nq : NQuery),
      normalizeQueryInfo ⟨.other, q.resource, q.action, q.possession⟩ = .ok nq →
      getUnionAttrsOfRoles u g ⟨.other, q.resource, q.action, q.possession⟩ fuel
        = (g, .error (.err "Invalid role(s): []"))) := by
  refine ⟨?_, ?_, ?_, ?_⟩
  · intro g res act poss attrs d n
    have h : toStringArray (.str "admin, user") = toStringArray (.list ["admin", "user"]) := by
      decide
    unfold commitToGrants
    rw [normalizeAccessInfo_role_congr _ _ res act poss attrs d n h]
  · intro a n
    simp [normalizeAccessInfo, toStringArray]
    decide
  · intro a n h1 h2
    have h1' : ¬ toStringArray a.role = [] := fun hh => by simp [hh] at h1
    have hres : toStringArray .other = [] := rfl
    simp [normalizeAccessInfo, h1', h2, hres]
    decide
  · intro u g q fuel nq h
    have hrole := normalizeQueryInfo_role _ _ h
    unfold getUnionAttrsOfRoles
    rw [h]
    dsimp only
    rw [hrole]
    simp [getFlatRoles, toStringArray]
    decide

/-- **C9** (witness): a non-string non-array resource in a commit and a
non-string non-array role in a query, at concrete inputs. -/
theorem c9_string_or_list_normalization_witness :
    normalizeAccessInfo ⟨.list ["u"], .other, some "create", none, none, false⟩ true
      = .error (.err "Invalid resource(s): []") ∧
    getUnionAttrsOfRoles uniqConcat [] ⟨.other, some "video", some "create", none⟩ 1
      = ([], .error (.err "Invalid role(s): []")) := by
  constructor
  · exact c9_string_or_list_normalization.2.2.1
      ⟨.list ["u"], .str "x", some "create", none, none, false⟩ true
      (by decide) (by decide)
  · exact c9_string_or_list_normalization.2.2.2 uniqConcat []
      ⟨.str "zz", some "video", some "create", none⟩ 1
      ⟨[], "video", "create", "any"⟩ (by decide)

/-- On a single role with no `$extend` and a present resource entry, the
evaluator reduces to that role's attribute lookup. -/
theorem getUnionAttrs_single (u : AttrList → AttrList → AttrList) (g : Grants)
    (q : QueryInfo) (fuel : Nat) (r res act poss : String)
    (entry : RoleEntry) (re : ResourceEntry)
    (hg : lookupKey g r = some entry) (hext : entry.extend = none)
    (hre : lookupKey entry.resources res = some re)
    (hfuel : 1 ≤ fuel)
    (hn : normalizeQueryInfo q = .ok ⟨[r], res, act, poss⟩)
    (hres : res ≠ "") :
    getUnionAttrsOfRoles u g q fuel = (g, .ok (roleAttrs re ⟨[r], res, act, poss⟩)) := by
  obtain ⟨fuel, rfl⟩ : ∃ k, fuel = k + 1 := ⟨fuel - 1, by omega⟩
  have hhier : getRoleHierarchyOf g (fuel + 1) r none = .ok [r] := by
    simp [getRoleHierarchyOf, hg, hext]
  have hflat : getFlatRoles g (fuel + 1) [r] = .ok [r] := by
    simp [getFlatRoles, flatGo, hhier, uniqConcat, pushUniq]
  have hcoll : collectAttrs g ⟨[r], res, act, poss⟩ [r]
      = .ok [roleAttrs re ⟨[r], res, act, poss⟩] := by
    simp [collectAttrs, hg, hres, hre]
  unfold getUnionAttrsOfRoles
  rw [hn]
  dsimp only
  rw [hflat]
  dsimp only
  rw [hcoll]
  rfl

/-- **C3**: for a role whose resource entry defines `action:any` but not
`action:own`, an `own` query yields the `action:any` attribute list (an "any"
grant satisfies an "own" query); with no `action:any` key, an `any` query
yields the empty list (no fallback from own to any); with both keys absent
the role contributes the empty list. -/
theorem c3_possession_fallback :
    ∀ (u : AttrList → AttrList → AttrList) (g : Grants) (q : QueryInfo) (fuel : Nat)
      (r res act : String) (entry : RoleEntry) (re : ResourceEntry),
      lookupKey g r = some entry → entry.extend = none →
      lookupKey entry.resources res = some re → 1 ≤ fuel →
      ((∀ l : AttrList,
          normalizeQueryInfo q = .ok ⟨[r], res, act, "own"⟩ →
          lookupKey re (act ++ ":own") = none →
          lookupKey re (act ++ ":any") = some l →
          getUnionAttrsOfRoles u g q fuel = (g, .ok l)) ∧
       (normalizeQueryInfo q = .ok ⟨[r], res, act, "any"⟩ →
          lookupKey re (act ++ ":any") = none →
          getUnionAttrsOfRoles u g q fuel = (g, .ok [])) ∧
       (normalizeQueryInfo q = .ok ⟨[r], res, act, "own"⟩ →
          lookupKey re (act ++ ":own") = none →
          lookupKey re (act ++ ":any") = none →
          getUnionAttrsOfRoles u g q fuel = (g, .ok []))) := by
  intro u g q fuel r res act entry re hg hext hre hfuel
  refine ⟨?_, ?_, ?_⟩
  · intro l hn h1 h2
    have hresne : res ≠ "" := by simpa using normalizeQueryInfo_resource_ne _ _ hn
    rw [getUnionAttrs_single u g q fuel r res act "own" entry re hg hext hre hfuel hn hresne]
    simp [roleAttrs, strAppend_assoc, h1, h2]
  · intro hn h1
    have hresne : res ≠ "" := by simpa using normalizeQueryInfo_resource_ne _ _ hn
    rw [getUnionAttrs_single u g q fuel r res act "any" entry re hg hext hre hfuel hn hresne]
    simp [roleAttrs, strAppend_assoc, h1]
  · intro hn h1 h2
    have hresne : res ≠ "" := by simpa using normalizeQueryInfo_resource_ne _ _ hn
    rw [getUnionAttrs_single u g q fuel r res act "own" entry re hg hext hre hfuel hn hresne]
    simp [roleAttrs, strAppend_assoc, h1, h2]

/-- A role granting only `create:any` on `video`. -/
def c3gAny : Grants := [("u", ⟨[("video", [("create:any", ["*"])])], none⟩)]

/-- A role granting only `create:own` on `video`. -/
def c3gOwn : Grants := [("u", ⟨[("video", [("create:own", ["*"])])], none⟩)]

/-- **C3** (witness): `create:own` falls back to the `create:any` grant; no
fallback from `own` to an `any` query; both keys absent yields `[]`. -/
theorem c3_possession_fallback_witness :
    getUnionAttrsOfRoles uniqConcat c3gAny
        ⟨.list ["u"], some "video", some "create", some "own"⟩ 1
      = (c3gAny, .ok ["*"]) ∧
    getUnionAttrsOfRoles uniqConcat c3gOwn
        ⟨.list ["u"], some "video", some "create", some "any"⟩ 1
      = (c3gOwn, .ok []) ∧
    getUnionAttrsOfRoles uniqConcat c3gAny
        ⟨.list ["u"], some "video", some "read", some "own"⟩ 1
      = (c3gAny, .ok []) := by
  refine ⟨?_, ?_, ?_⟩
  · exact (c3_possession_fallback uniqConcat c3gAny _ 1 "u" "video" "create"
      ⟨[("video", [("create:any", ["*"])])], none⟩ [("create:any", ["*"])]
      (by decide) (by decide) (by decide) (by decide)).1 ["*"]
      (by decide) (by decide) (by decide)
  · exact (c3_possession_fallback uniqConcat c3gOwn _ 1 "u" "video" "create"
      ⟨[("video", [("create:own", ["*"])])], none⟩ [("create:own", ["*"])]
      (by decide) (by decide) (by decide) (by decide)).2.1
      (by decide) (by decide)
  · exact (c3_possession_fallback uniqConcat c3gAny _ 1 "u" "video" "read"
      ⟨[("video", [("create:any", ["*"])])], none⟩ [("create:any", ["*"])]
      (by decide) (by decide) (by decide) (by decide)).2.2
      (by decide) (by decide) (by decide)

/-- One unfolding step of the resolver for a role with a single extender
whose recursive resolution is already known. -/
theorem hier_cons_one (g : Grants) (fuel : Nat) (r x : String) (er xv : RoleEntry)
    (hr : lookupKey g r = some er) (hx : lookupKey g x = some xv)
    (hext : er.extend = some [x]) (hxr : x ≠ r) (root : Option String)
    (hroot : root ≠ some x) (ext : List String)
    (hrec : getRoleHierarchyOf g fuel x (some (root.getD r)) = .ok ext) :
    getRoleHierarchyOf g (fuel + 1) r root = .ok (uniqConcat [r] ext) := by
  simp [getRoleHierarchyOf, goExts, hr, hext, hx, hxr, hroot, hrec]

/-- The branching table for C4: `A` extends `[B, C]` (in that order) and `B`
extends `[D]`. -/
def c4Branching : Grants :=
  [("A", ⟨[], some ["B", "C"]⟩), ("B", ⟨[], some ["D"]⟩),
   ("C", ⟨[], none⟩), ("D", ⟨[], none⟩)]

/-- **C4** (counterexample): with `A.extends = [B, C]` and `B.extends = [D]`
the resolver returns `[A, B, D, C]` — `B`'s full closure is flattened before
the sibling `C` (depth-first), not the breadth order `[A, B, C, D]` that the
claim prescribes in general. -/
theorem c4_breadth_order_counterexample :
    getRoleHierarchyOf c4Branching 4 "A" none = .ok ["A", "B", "D", "C"] ∧
    (["A", "B", "D", "C"] : List String) ≠ ["A", "B", "C", "D"] := by
  decide

/-- **C4** (amended): a role with no (or an empty) `extends` list resolves to
exactly `[r]`, and a chain `A.extends = [B]`, `B.extends = [C]` (three
distinct roles) resolves to exactly `[A, B, C]` — in general the role itself
comes first, followed by the de-duplicated closure of direct and indirect
extenders in depth-first (pre-order) order. -/
theorem c4_hierarchy_resolution :
    (∀ (g : Grants) (r : String) (entry : RoleEntry) (fuel : Nat),
      lookupKey g r = some entry →
      (entry.extend = none ∨ entry.extend = some []) → 1 ≤ fuel →
      getRoleHierarchyOf g fuel r none = .ok [r]) ∧
    (∀ (g : Grants) (a b c : String) (ea eb ec : RoleEntry) (fuel : Nat),
      lookupKey g a = some ea → lookupKey g b = some eb → lookupKey g c = some ec →
      ea.extend = some [b] → eb.extend = some [c] → ec.extend = none →
      a ≠ b → b ≠ c → a ≠ c → 3 ≤ fuel →
      getRoleHierarchyOf g fuel a none = .ok [a, b, c]) := by
  constructor
  · intro g r entry fuel hg hext hfuel
    obtain ⟨k, rfl⟩ : ∃ k, fuel = k + 1 := ⟨fuel - 1, by omega⟩
    rcases hext with h | h <;> simp [getRoleHierarchyOf, hg, h]
  · intro g a b c ea eb ec fuel hga hgb hgc hea heb hec hab hbc hac hfuel
    obtain ⟨k, rfl⟩ : ∃ k, fuel = k + 1 + 1 + 1 := ⟨fuel - 3, by omega⟩
    have hc : getRoleHierarchyOf g (k + 1) c (some a) = .ok [c] := by
      simp [getRoleHierarchyOf, hgc, hec]
    have hb : getRoleHierarchyOf g (k + 1 + 1) b (some a) = .ok (uniqConcat [b] [c]) :=
      hier_cons_one g (k + 1) b c eb ec hgb hgc heb (Ne.symm hbc) (some a)
        (by simp [hac]) [c] hc
    rw [show uniqConcat [b] [c] = [b, c] from by
      simp [uniqConcat, pushUniq, Ne.symm hbc]] at hb
    have htop : getRoleHierarchyOf g (k + 1 + 1 + 1) a none
        = .ok (uniqConcat [a] [b, c]) :=
      hier_cons_one g (k + 1 + 1) a b ea eb hga hgb hea (Ne.symm hab) none
        (by simp) [b, c] hb
    rw [htop]
    simp [uniqConcat, pushUniq, Ne.symm hab, Ne.symm hac, Ne.symm hbc]

/-- **C4** (witness): a role with no extends and the chain
`A → B → C`, on concrete tables. -/
theorem c4_hierarchy_resolution_witness :
    getRoleHierarchyOf [("u", emptyRoleEntry)] 1 "u" none = .ok ["u"] ∧
    getRoleHierarchyOf
        [("A", ⟨[], some ["B"]⟩), ("B", ⟨[], some ["C"]⟩), ("C", ⟨[], none⟩)]
        3 "A" none = .ok ["A", "B", "C"] := by
  constructor
  · exact c4_hierarchy_resolution.1 [("u", emptyRoleEntry)] "u" emptyRoleEntry 1
      (by decide) (Or.inl (by decide)) (by decide)
  · exact c4_hierarchy_resolution.2 _ "A" "B" "C"
      ⟨[], some ["B"]⟩ ⟨[], some ["C"]⟩ ⟨[], none⟩ 3
      (by decide) (by decide) (by decide) (by decide) (by decide) (by decide)
      (by decide) (by decide) (by decide) (by decide)

/-- **C5**: `extendRole` fails with a role-not-found error when an extender
is absent ("Cannot inherit non-existent role(s)") or when a target role is
absent (no auto-creation; "Role not found"); with a self-extension error when
an extender equals the target; with a cross-inheritance error when the
extender already transitively inherits the target (`A.extends = [B]`, then
extending `B` by `A`); and on success it merges the extenders into the
role's `extends` list, de-duplicated, prior order first, new entries
appended. -/
theorem c5_extend_role_contract :
    (∀ (g : Grants) (r e : String) (fuel : Nat),
      lookupKey g e = none →
      extendRole g (.list [r]) (.list [e]) fuel
        = (g, some (.err ("Cannot inherit non-existent role(s): \"" ++ e ++ "\"")))) ∧
    (∀ (g : Grants) (r e : String) (ee : RoleEntry) (fuel : Nat),
      lookupKey g e = some ee → lookupKey g r = none →
      extendRole g (.list [r]) (.list [e]) fuel
        = (g, some (.err ("Role not found: \"" ++ r ++ "\"")))) ∧
    (∀ (g : Grants) (r : String) (er : RoleEntry) (fuel : Nat),
      lookupKey g r = some er →
      extendRole g (.list [r]) (.list [r]) fuel
        = (g, some (.err ("Cannot extend role \"" ++ r ++ "\" by itself.")))) ∧
    (∀ (g : Grants) (a b : String) (ea eb : RoleEntry) (fuel : Nat),
      lookupKey g a = some ea → lookupKey g b = some eb →
      ea.extend = some [b] → eb.extend = none → a ≠ b → 2 ≤ fuel →
      extendRole g (.list [b]) (.list [a]) fuel
        = (g, some (.err ("Cross inheritance is not allowed. Role \"" ++ a ++
            "\" already extends \"" ++ b ++ "\".")))) ∧
    (∀ (g : Grants) (r e : String) (er ee : RoleEntry) (fuel : Nat),
      lookupKey g r = some er → lookupKey g e = some ee → r ≠ e →
      validNameE r = .ok () →
      getCrossExtendingRole g r (.list [e]) fuel = .ok none →
      extendRole g (.list [r]) (.list [e]) fuel
        = (setKey g r { er with extend := some (match er.extend with
            | some l => uniqConcat l [e]
            | none => [e]) }, none)) := by
  refine ⟨?_, ?_, ?_, ?_, ?_⟩
  · intro g r e fuel he
    simp [extendRole, toStringArray, isEmptyArrayS, getNonExistentRoles, he,
      String.intercalate]
    rfl
  · intro g r e ee fuel he hr
    simp [extendRole, toStringArray, isEmptyArrayS, getNonExistentRoles, he,
      extendLoop, hr]
  · intro g r er fuel hr
    simp [extendRole, toStringArray, isEmptyArrayS, getNonExistentRoles, hr,
      extendLoop]
  · intro g a b ea eb fuel hga hgb hea heb hab hfuel
    obtain ⟨k, rfl⟩ : ∃ k, fuel = k + 1 + 1 := ⟨fuel - 2, by omega⟩
    have hhb : getRoleHierarchyOf g (k + 1) b (some a) = .ok [b] := by
      simp [getRoleHierarchyOf, hgb, heb]
    have hhierA : getRoleHierarchyOf g (k + 1 + 1) a none = .ok (uniqConcat [a] [b]) :=
      hier_cons_one g (k + 1) a b ea eb hga hgb hea (Ne.symm hab) none
        (by simp) [b] hhb
    rw [show uniqConcat [a] [b] = [a, b] from by
      simp [uniqConcat, pushUniq, Ne.symm hab]] at hhierA
    have hcross : getCrossExtendingRole g b (.list [a]) (k + 1 + 1) = .ok (some a) := by
      simp [getCrossExtendingRole, toStringArray, crossGo, hab, hhierA]
    simp [extendRole, toStringArray, isEmptyArrayS, getNonExistentRoles, hga,
      extendLoop, hgb, Ne.symm hab, hcross]
  · intro g r e er ee fuel hgr hge hre hname hcross
    simp [extendRole, toStringArray, isEmptyArrayS, getNonExistentRoles, hge,
      extendLoop, hgr, hre, hcross, hname]

/-- **C5** (witness): all five behaviors on concrete tables. -/
theorem c5_extend_role_contract_witness :
    extendRole [("A", emptyRoleEntry)] (.list ["A"]) (.list ["Z"]) 2
      = ([("A", emptyRoleEntry)],
         some (.err "Cannot inherit non-existent role(s): \"Z\"")) ∧
    extendRole [("B", emptyRoleEntry)] (.list ["A"]) (.list ["B"]) 2
      = ([("B", emptyRoleEntry)], some (.err "Role not found: \"A\"")) ∧
    extendRole [("A", emptyRoleEntry)] (.list ["A"]) (.list ["A"]) 2
      = ([("A", emptyRoleEntry)],
         some (.err "Cannot extend role \"A\" by itself.")) ∧
    extendRole [("A", ⟨[], some ["B"]⟩), ("B", emptyRoleEntry)]
        (.list ["B"]) (.list ["A"]) 2
      = ([("A", ⟨[], some ["B"]⟩), ("B", emptyRoleEntry)],
         some (.err "Cross inheritance is not allowed. Role \"A\" already extends \"B\".")) ∧
    extendRole [("A", emptyRoleEntry), ("B", emptyRoleEntry)]
        (.list ["A"]) (.list ["B"]) 2
      = ([("A", ⟨[], some ["B"]⟩), ("B", emptyRoleEntry)], none) := by
  refine ⟨?_, ?_, ?_, ?_, ?_⟩
  · exact c5_extend_role_contract.1 [("A", emptyRoleEntry)] "A" "Z" 2 (by decide)
  · exact c5_extend_role_contract.2.1 [("B", emptyRoleEntry)] "A" "B"
      emptyRoleEntry 2 (by decide) (by decide)
  · exact c5_extend_role_contract.2.2.1 [("A", emptyRoleEntry)] "A"
      emptyRoleEntry 2 (by decide)
  · exact c5_extend_role_contract.2.2.2.1 _ "A" "B" ⟨[], some ["B"]⟩
      emptyRoleEntry 2 (by decide) (by decide) (by decide) (by decide)
      (by decide) (by decide)
  · have h := c5_extend_role_contract.2.2.2.2
      [("A", emptyRoleEntry), ("B", emptyRoleEntry)] "A" "B"
      emptyRoleEntry emptyRoleEntry 2 (by decide) (by decide) (by decide)
      (by decide) (by decide)
    exact h

/-- The table records `attrs` under `role`/`res`/`ap`. -/
def HasGrant (g : Grants) (role res ap : String) (attrs : AttrList) : Prop :=
  ∃ item re, lookupKey g role = some item ∧
    lookupKey item.resources res = some re ∧ lookupKey re ap = some attrs

/-- The resource-loop writes of one commit preserve an already-recorded grant
for the same `ap`/`attrs` (every write stores exactly `attrs` at `ap`). -/
theorem commitRes_pres (ap : String) (attrs : AttrList) (r2 role res : String) :
    ∀ (ress : List String) (g : Grants),
      HasGrant g role res ap attrs →
      HasGrant (commitRes ap attrs r2 g ress).1 role res ap attrs := by
  intro ress
  induction ress with
  | nil => intro g h; exact h
  | cons res2 rest ih =>
    intro g h
    obtain ⟨item0, re0, hitem0, hre0, hap0⟩ := h
    simp only [commitRes]
    cases hv : validNameE res2 with
    | error e => exact ⟨item0, re0, hitem0, hre0, hap0⟩
    | ok u =>
      dsimp only
      apply ih
      by_cases hrr : r2 = role
      · subst hrr
        rw [hitem0]
        by_cases hres2 : res2 = res
        · subst hres2
          rw [show ((some item0).getD emptyRoleEntry) = item0 from rfl, hre0]
          exact ⟨_, setKey re0 ap attrs, lookupKey_setKey_self _ _ _,
            lookupKey_setKey_self _ _ _, lookupKey_setKey_self _ _ _⟩
        · refine ⟨_, re0, lookupKey_setKey_self _ _ _, ?_, hap0⟩
          show lookupKey (setKey item0.resources res2 _) res = some re0
          rw [lookupKey_setKey_ne _ _ _ _ (fun hh => hres2 hh.symm)]
          exact hre0
      · exact ⟨item0, re0,
          by rw [lookupKey_setKey_ne _ _ _ _ (fun hh => hrr hh.symm)]; exact hitem0,
          hre0, hap0⟩

/-- The resource-loop writes never remove a role entry. -/
theorem commitRes_keeps_isSome (ap : String) (attrs : AttrList) (r2 k : String) :
    ∀ (ress : List String) (g : Grants),
      (lookupKey g k).isSome →
      (lookupKey (commitRes ap attrs r2 g ress).1 k).isSome := by
  intro ress
  induction ress with
  | nil => intro g h; exact h
  | cons res2 rest ih =>
    intro g h
    simp only [commitRes]
    cases hv : validNameE res2 with
    | error e => exact h
    | ok u =>
      dsimp only
      exact ih _ (lookupKey_setKey_isSome _ _ _ _ h)

/-- After a successful resource loop, every listed resource has `attrs`
recorded at `ap` for the role. -/
theorem commitRes_post (ap : String) (attrs : AttrList) (role : String) :
    ∀ (ress : List String) (g g2 : Grants),
      commitRes ap attrs role g ress = (g2, none) →
      ∀ res ∈ ress, HasGrant g2 role res ap attrs := by
  intro ress
  induction ress with
  | nil => intro g g2 h res hres; cases hres
  | cons res2 rest ih =>
    intro g g2 h res hres
    simp only [commitRes] at h
    cases hv : validNameE res2 with
    | error e => rw [hv] at h; simp at h
    | ok u =>
      rw [hv] at h
      dsimp only at h
      rcases List.mem_cons.mp hres with rfl | hmem
      · have hnow : HasGrant
            (setKey g role
              { (lookupKey g role).getD emptyRoleEntry with
                resources := setKey ((lookupKey g role).getD emptyRoleEntry).resources res
                  (setKey ((lookupKey ((lookupKey g role).getD emptyRoleEntry).resources
                    res).getD []) ap attrs) })
            role res ap attrs :=
          ⟨_, _, lookupKey_setKey_self _ _ _, lookupKey_setKey_self _ _ _,
            lookupKey_setKey_self _ _ _⟩
        have hpres := commitRes_pres ap attrs role role res rest _ hnow
        rw [h] at hpres
        exact hpres
      · exact ih _ _ h res hmem

/-- A successful resource loop means every listed resource name was valid. -/
theorem commitRes_names (ap : String) (attrs : AttrList) (role : String) :
    ∀ (ress : List String) (g g2 : Grants),
      commitRes ap attrs role g ress = (g2, none) →
      ∀ res ∈ ress, validNameE res = .ok () := by
  intro ress
  induction ress with
  | nil => intro g g2 h res hres; cases hres
  | cons res2 rest ih =>
    intro g g2 h res hres
    simp only [commitRes] at h
    cases hv : validNameE res2 with
    | error e => rw [hv] at h; simp at h
    | ok u =>
      rw [hv] at h
      dsimp only at h
      rcases List.mem_cons.mp hres with rfl | hmem
      · cases u; exact hv
      · exact ih _ _ h res hmem

/-- Re-running the resource loop over grants it has already produced changes
nothing: every write stores the value already present. -/
theorem commitRes_replay (ap : String) (attrs : AttrList) (role : String) :
    ∀ (ress : List String) (g : Grants),
      (∀ res ∈ ress, validNameE res = .ok () ∧ HasGrant g role res ap attrs) →
      commitRes ap attrs role g ress = (g, none) := by
  intro ress
  induction ress with
  | nil => intro g _; rfl
  | cons res2 rest ih =>
    intro g h
    obtain ⟨hv, item0, re0, hitem0, hre0, hap0⟩ := h res2 (List.mem_cons_self _ _)
    simp only [commitRes, hv]
    rw [hitem0]
    rw [show ((some item0).getD emptyRoleEntry) = item0 from rfl, hre0]
    rw [show ((some re0).getD ([] : ResourceEntry)) = re0 from rfl]
    rw [setKey_id _ _ _ hap0, setKey_id _ _ _ hre0]
    rw [show ({ item0 with resources := item0.resources } : RoleEntry) = item0 from rfl]
    rw [setKey_id _ _ _ hitem0]
    exact ih g (fun res hres => h res (List.mem_cons_of_mem _ hres))

/-- The role loop of a commit preserves an already-recorded grant for the
same `ap`/`attrs`. -/
theorem commitRoles_pres (ap : String) (attrs : AttrList) (ress : List String)
    (role res : String) :
    ∀ (roles : List String) (g : Grants),
      HasGrant g role res ap attrs →
      HasGrant (commitRoles ap attrs ress g roles).1 role res ap attrs := by
  intro roles
  induction roles with
  | nil => intro g h; exact h
  | cons r2 rest ih =>
    intro g h
    simp only [commitRoles]
    cases hv : validNameE r2 with
    | error e => exact h
    | ok u =>
      dsimp only
      have h1 : HasGrant (if (lookupKey g r2).isSome then g
          else setKey g r2 emptyRoleEntry) role res ap attrs := by
        by_cases hs : (lookupKey g r2).isSome
        · rw [if_pos hs]; exact h
        · rw [if_neg hs]
          obtain ⟨item0, re0, hitem0, hre0, hap0⟩ := h
          have hne : r2 ≠ role := by
            intro hh
            rw [hh, hitem0] at hs
            exact hs rfl
          exact ⟨item0, re0,
            by rw [lookupKey_setKey_ne _ _ _ _ (Ne.symm hne)]; exact hitem0,
            hre0, hap0⟩
      have h2 := commitRes_pres ap attrs r2 role res ress _ h1
      cases hcr : commitRes ap attrs r2 (if (lookupKey g r2).isSome then g
          else setKey g r2 emptyRoleEntry) ress with
      | mk g2 err =>
        rw [hcr] at h2
        cases err with
        | none => exact ih g2 h2
        | some e => exact h2

/-- The role loop never removes a role entry. -/
theorem commitRoles_keeps_isSome (ap : String) (attrs : AttrList)
    (ress : List String) (k : String) :
    ∀ (roles : List String) (g : Grants),
      (lookupKey g k).isSome →
      (lookupKey (commitRoles ap attrs ress g roles).1 k).isSome := by
  intro roles
  induction roles with
  | nil => intro g h; exact h
  | cons r2 rest ih =>
    intro g h
    simp only [commitRoles]
    cases hv : validNameE r2 with
    | error e => exact h
    | ok u =>
      dsimp only
      have h1 : (lookupKey (if (lookupKey g r2).isSome then g
          else setKey g r2 emptyRoleEntry) k).isSome := by
        by_cases hs : (lookupKey g r2).isSome
        · rw [if_pos hs]; exact h
        · rw [if_neg hs]; exact lookupKey_setKey_isSome _ _ _ _ h
      have h2 := commitRes_keeps_isSome ap attrs r2 k ress _ h1
      cases hcr : commitRes ap attrs r2 (if (lookupKey g r2).isSome then g
          else setKey g r2 emptyRoleEntry) ress with
      | mk g2 err =>
        rw [hcr] at h2
        cases err with
        | none => exact ih g2 h2
        | some e => exact h2

/-- A successful role loop means every listed role name was valid. -/
theorem commitRoles_names (ap : String) (attrs : AttrList) (ress : List String) :
    ∀ (roles : List String) (g g2 : Grants),
      commitRoles ap attrs ress g roles = (g2, none) →
      ∀ role ∈ roles, validNameE role = .ok () := by
  intro roles
  induction roles with
  | nil => intro g g2 h role hrole; cases hrole
  | cons r2 rest ih =>
    intro g g2 h role hrole
    simp only [commitRoles] at h
    cases hv : validNameE r2 with
    | error e => rw [hv] at h; simp at h
    | ok u =>
      rw [hv] at h
      dsimp only at h
      cases hcr : commitRes ap attrs r2 (if (lookupKey g r2).isSome then g
          else setKey g r2 emptyRoleEntry) ress with
      | mk g2' err =>
        rw [hcr] at h
        cases err with
        | some e => simp at h
        | none =>
          rcases List.mem_cons.mp hrole with rfl | hmem
          · cases u; exact hv
          · exact ih _ _ h role hmem

/-- A successful role loop with a non-empty role list means every listed
resource name was valid. -/
theorem commitRoles_res_names (ap : String) (attrs : AttrList) (ress : List String) :
    ∀ (roles : List String) (g g2 : Grants),
      commitRoles ap attrs ress g roles = (g2, none) → roles ≠ [] →
      ∀ res ∈ ress, validNameE res = .ok () := by
  intro roles
  cases roles with
  | nil => intro g g2 h hne; exact absurd rfl hne
  | cons r2 rest =>
    intro g g2 h _
    simp only [commitRoles] at h
    cases hv : validNameE r2 with
    | error e => rw [hv] at h; simp at h
    | ok u =>
      rw [hv] at h
      dsimp only at h
      cases hcr : commitRes ap attrs r2 (if (lookupKey g r2).isSome then g
          else setKey g r2 emptyRoleEntry) ress with
      | mk g2' err =>
        rw [hcr] at h
        cases err with
        | some e => simp at h
        | none => exact commitRes_names ap attrs r2 ress _ _ hcr

/-- After a successful role loop, every listed role exists and has `attrs`
recorded at `ap` for every listed resource. -/
theorem commitRoles_post (ap : String) (attrs : AttrList) (ress : List String) :
    ∀ (roles : List String) (g g2 : Grants),
      commitRoles ap attrs ress g roles = (g2, none) →
      ∀ role ∈ roles, (lookupKey g2 role).isSome ∧
        ∀ res ∈ ress, HasGrant g2 role res ap attrs := by
  intro roles
  induction roles with
  | nil => intro g g2 h role hrole; cases hrole
  | cons r2 rest ih =>
    intro g g2 h role hrole
    simp only [commitRoles] at h
    cases hv : validNameE r2 with
    | error e => rw [hv] at h; simp at h
    | ok u =>
      rw [hv] at h
      dsimp only at h
      cases hcr : commitRes ap attrs r2 (if (lookupKey g r2).isSome then g
          else setKey g r2 emptyRoleEntry) ress with
      | mk g2' err =>
        rw [hcr] at h
        cases err with
        | some e => simp at h
        | none =>
          dsimp only at h
          rcases List.mem_cons.mp hrole with rfl | hmem
          · constructor
            · have h1 : (lookupKey (if (lookupKey g role).isSome then g
                  else setKey g role emptyRoleEntry) role).isSome := by
                by_cases hs : (lookupKey g role).isSome
                · rw [if_pos hs]; exact hs
                · rw [if_neg hs]
                  rw [lookupKey_setKey_self]
                  rfl
              have h2 := commitRes_keeps_isSome ap attrs role role ress _ h1
              rw [hcr] at h2
              have h3 := commitRoles_keeps_isSome ap attrs ress role rest g2' h2
              rw [h] at h3
              exact h3
            · intro res hres
              have h2 := commitRes_post ap attrs role ress _ _ hcr res hres
              have h3 := commitRoles_pres ap attrs ress role res rest g2' h2
              rw [h] at h3
              exact h3
          · exact ih _ _ h role hmem

/-- Re-running the role loop over a table it has already produced changes
nothing. -/
theorem commitRoles_replay (ap : String) (attrs : AttrList) (ress : List String) :
    ∀ (roles : List String) (g : Grants),
      (∀ role ∈ roles, validNameE role = .ok () ∧ (lookupKey g role).isSome ∧
        ∀ res ∈ ress, validNameE res = .ok () ∧ HasGrant g role res ap attrs) →
      commitRoles ap attrs ress g roles = (g, none) := by
  intro roles
  induction roles with
  | nil => intro g _; rfl
  | cons r2 rest ih =>
    intro g h
    obtain ⟨hv, hsome, hper⟩ := h r2 (List.mem_cons_self _ _)
    simp only [commitRoles, hv]
    rw [if_pos hsome]
    rw [commitRes_replay ap attrs r2 ress g hper]
    exact ih g (fun role hrole => h role (List.mem_cons_of_mem _ hrole))

/-- **C6**: committing the same access statement twice yields a table equal
to committing it once — the commit overwrites `resourceEntry[ap]` with the
same normalized attributes, so the second run performs only writes that store
the value already present. -/
theorem c6_commit_idempotent :
    ∀ (g : Grants) (a : AccessInfo) (n : Bool) (g' : Grants),
      commitToGrants g a n = (g', none) → commitToGrants g' a n = (g', none) := by
  intro g a n g' h
  unfold commitToGrants at h ⊢
  cases hn : normalizeAccessInfo a n with
  | error e => rw [hn] at h; simp at h
  | ok info =>
    rw [hn] at h
    dsimp only at h ⊢
    apply commitRoles_replay
    intro role hrole
    have hname := commitRoles_names _ _ _ _ _ _ h role hrole
    have hpost := commitRoles_post _ _ _ _ _ _ h role hrole
    refine ⟨hname, hpost.1, ?_⟩
    intro res hres
    exact ⟨commitRoles_res_names _ _ _ _ _ _ h (List.ne_nil_of_mem hrole) res hres,
      hpost.2 res hres⟩

/-- **C6** (witness): committing the example statement onto the table it
already produced changes nothing. -/
theorem c6_commit_idempotent_witness :
    commitToGrants [("u", ⟨[("video", [("create:any", ["*"])])], none⟩)]
      ⟨.list ["u"], .str "video", some "create", some "any", some (.list ["*"]), false⟩ true
      = ([("u", ⟨[("video", [("create:any", ["*"])])], none⟩)], none) := by
  exact c6_commit_idempotent [] _ true _ (by decide)

/-- Acyclicity of the `$extend` relation, witnessed by a rank function that
strictly decreases along every extend edge and, for roles present in the
table, is bounded by the number of roles. -/
def AcyclicRanked (g : Grants) (rank : String → Nat) : Prop :=
  ∀ p ∈ g, (∀ e ∈ p.2.extend.getD [], rank e < rank p.1) ∧ rank p.1 < g.length

/-- On an acyclic table, the resolver never exhausts its fuel when the fuel
exceeds the rank of the role being resolved. -/
theorem hier_no_outOfFuel (g : Grants) (rank : String → Nat)
    (hacy : AcyclicRanked g rank) :
    ∀ (fuel : Nat) (r : String) (root : Option String),
      1 ≤ fuel → (∀ entry, lookupKey g r = some entry → rank r < fuel) →
      getRoleHierarchyOf g fuel r root ≠ .error .outOfFuel := by
  intro fuel
  induction fuel with
  | zero => intro r root h1 _; omega
  | succ n ih =>
    intro r root _ hrank
    cases hl : lookupKey g r with
    | none => simp [getRoleHierarchyOf, hl]
    | some entry =>
      cases hext : entry.extend with
      | none => simp [getRoleHierarchyOf, hl, hext]
      | some exts =>
        by_cases hemp : exts.isEmpty
        · simp [getRoleHierarchyOf, hl, hext, hemp]
        · simp only [getRoleHierarchyOf, hl, hext, hemp, Bool.false_eq_true, if_false]
          have hrankr : rank r < n + 1 := hrank entry hl
          have hrn : rank r ≤ n := by omega
          have hstep := (hacy _ (lookupKey_mem g r entry hl)).1
          rw [hext] at hstep
          have key : ∀ (l : List String), (∀ e ∈ l, rank e < rank r) →
              ∀ (arr : List String),
              goExts (fun ex ro => getRoleHierarchyOf g n ex ro) g r root l arr
                ≠ .error .outOfFuel := by
            intro l
            induction l with
            | nil => intro _ arr; simp [goExts]
            | cons e rest ihl =>
              intro hl2 arr
              simp only [goExts]
              cases hle : lookupKey g e with
              | none => simp
              | some ev =>
                dsimp only
                by_cases her : e = r
                · simp [her]
                · rw [if_neg her]
                  by_cases hroot : root = some e
                  · simp [hroot]
                  · rw [if_neg hroot]
                    have hre : rank e < rank r := hl2 e (List.mem_cons_self _ _)
                    have h1n : 1 ≤ n := by omega
                    have hcall := ih e (some (root.getD r)) h1n
                      (fun entry' _ => by omega)
                    cases hc : getRoleHierarchyOf g n e (some (root.getD r)) with
                    | error e' =>
                      rw [hc] at hcall
                      simpa using hcall
                    | ok ext =>
                      dsimp only
                      exact ihl (fun e' he' => hl2 e' (List.mem_cons_of_mem _ he')) _
          exact key exts (fun e he => hstep e (by simpa using he)) [r]

/-- **C8**: for a grants table whose extends relation is acyclic (witnessed
by a rank function, the invariant the committer and `extendRole` maintain),
hierarchy resolution and role flattening terminate within recursion depth
bounded by the number of roles: with fuel `|roles| + 1` neither
`getRoleHierarchyOf` nor `getFlatRoles` ever exhausts its fuel. -/
theorem c8_hierarchy_terminates :
    ∀ (g : Grants) (rank : String → Nat), AcyclicRanked g rank →
      (∀ (r : String) (root : Option String),
        getRoleHierarchyOf g (g.length + 1) r root ≠ .error .outOfFuel) ∧
      (∀ roles : List String,
        getFlatRoles g (g.length + 1) roles ≠ .error .outOfFuel) := by
  intro g rank hacy
  have hmain : ∀ (r : String) (root : Option String),
      getRoleHierarchyOf g (g.length + 1) r root ≠ .error .outOfFuel := by
    intro r root
    apply hier_no_outOfFuel g rank hacy
    · omega
    · intro entry hl
      have h2 := (hacy _ (lookupKey_mem g r entry hl)).2
      dsimp only at h2
      omega
  refine ⟨hmain, ?_⟩
  intro roles
  have key : ∀ (l arr : List String),
      flatGo g (g.length + 1) l arr ≠ .error .outOfFuel := by
    intro l
    induction l with
    | nil => intro arr; simp [flatGo]
    | cons r rest ihl =>
      intro arr
      simp only [flatGo]
      cases hc : getRoleHierarchyOf g (g.length + 1) r none with
      | error e =>
        have hm := hmain r none
        rw [hc] at hm
        simpa using hm
      | ok hlist =>
        dsimp only
        exact ihl _
  unfold getFlatRoles
  by_cases hemp : roles.isEmpty
  · simp [hemp]
  · simp only [hemp, Bool.false_eq_true, if_false]
    exact key roles (uniqConcat [] roles)

/-- The chain table `A → B → C` for the C8 witness. -/
def c8Grants : Grants :=
  [("A", ⟨[], some ["B"]⟩), ("B", ⟨[], some ["C"]⟩), ("C", ⟨[], none⟩)]

/-- A topological rank for `c8Grants`. -/
def c8Rank : String → Nat :=
  fun r => if r = "A" then 2 else if r = "B" then 1 else 0

/-- **C8** (witness): the chain table is acyclic under `c8Rank`, and the
resolver does not exhaust fuel `|roles| + 1 = 4` on it. -/
theorem c8_hierarchy_terminates_witness :
    AcyclicRanked c8Grants c8Rank ∧
    getRoleHierarchyOf c8Grants 4 "A" none ≠ .error .outOfFuel := by
  have hacy : AcyclicRanked c8Grants c8Rank := by
    unfold AcyclicRanked
    decide
  exact ⟨hacy, (c8_hierarchy_terminates c8Grants c8Rank hacy).1 "A" none⟩


